import Mathlib

/-!
Verification development for the ImageGridOptimizer collage algorithm
(`src/image_processor.rs`).  The core operations — `is_empty_space`,
`place_image` and `create_collage` — are shallowly embedded below.

Modelling conventions:
* A pixel keeps its three colour channels (the code only ever inspects
  channels 0–2); `u32` coordinates and dimensions become `Nat` (no claim
  depends on wrap-around, and `saturating_sub` is exactly `Nat` subtraction).
* `DynamicImage` becomes `Img`: a width, a height and a total pixel map.
* The scan loop of `place_image` (y outer, x inner, with `continue` and an
  early `return`) becomes the structurally recursive `scan` over the
  row-major position list, threading the `min_width`/`min_height`/
  `min_scope`/`found` mutable state.
* The unbounded recursion of `place_image` becomes fuel-indexed; `none`
  means the fuel ran out (the recursion did not terminate within `fuel`
  growth steps).
* `create_collage` is instrumented to also return the list of placed
  bounding boxes (origin and size of every rectangle copied into the
  canvas, the seed included); the canvas it returns is untouched by the
  instrumentation.  `Vec::remove(0)` on an empty vector panics in the
  reference; the model returns `none` for that branch.
-/

/-- An RGB pixel (the reference code only ever tests channels 0, 1, 2). -/
structure Pixel where
  r : Nat
  g : Nat
  b : Nat
deriving DecidableEq, Repr

/-- Pure black, the unoccupied-background sentinel (`new_rgb8` zero fill). -/
def blackPix : Pixel := ⟨0, 0, 0⟩

/-- Pure white, the border-marker sentinel. -/
def whitePix : Pixel := ⟨255, 255, 255⟩

/-- An image: dimensions plus a total pixel map (only in-bounds values are
ever consulted by the algorithm). -/
structure Img where
  width : Nat
  height : Nat
  pix : Nat → Nat → Pixel

/-- Background test, from `pixel[0] != 0 || pixel[1] != 0 || pixel[2] != 0`
(the scan `continue`s on pixels that are not pure black). -/
def isBg (p : Pixel) : Bool := p.r == 0 && p.g == 0 && p.b == 0

/-- Border-marker test, from
`neighbor_pixel[0] == 255 && neighbor_pixel[1] == 255 && neighbor_pixel[2] == 255`. -/
def isWhite (p : Pixel) : Bool := p.r == 255 && p.g == 255 && p.b == 255

/-- Model of `GenericImage::copy_from(&src, ox, oy)`: overwrite the
`src`-sized box at `(ox, oy)` of `dst` with `src`'s pixels. -/
def copyFrom (dst src : Img) (ox oy : Nat) : Img :=
  ⟨dst.width, dst.height, fun i j =>
    if ox ≤ i ∧ i < ox + src.width ∧ oy ≤ j ∧ j < oy + src.height then
      src.pix (i - ox) (j - oy)
    else dst.pix i j⟩

/-- Model of `DynamicImage::new_rgb8 w h`: an all-black buffer. -/
def blackImg (w h : Nat) : Img := ⟨w, h, fun _ _ => blackPix⟩

/-- A canvas-growth step of `place_image`: allocate `new_rgb8 W H` and
`copy_from(&collage, 0, 0)` into it. -/
def growCanvas (c : Img) (W H : Nat) : Img := copyFrom (blackImg W H) c 0 0

/-- Model of `is_empty_space`: clip the footprint to the canvas, then
report whether every remaining pixel is background (the two `for` loops
with the early `return false`). -/
def is_empty_space (c : Img) (x y width height : Nat) : Bool :=
  let width := if x + width > c.width then c.width - x else width
  let height := if y + height > c.height then c.height - y else height
  (List.range height).all fun j => (List.range width).all fun i =>
    isBg (c.pix (x + i) (y + j))

/-- The four neighbour coordinates probed by the scan; `Nat` subtraction is
`u32::saturating_sub`. -/
def neighbors (x y : Nat) : List (Nat × Nat) :=
  [(x - 1, y), (x + 1, y), (x, y - 1), (x, y + 1)]

/-- The `boundary` flag of the scan: some in-bounds 4-neighbour is a
border-marker pixel. -/
def hasBoundary (c : Img) (x y : Nat) : Bool :=
  (neighbors x y).any fun p =>
    decide (p.1 < c.width) && decide (p.2 < c.height) && isWhite (c.pix p.1 p.2)

/-- A candidate anchor: a background pixel the scan does not `continue`
past — background itself and flanked by a border marker. -/
def anchorAt (c : Img) (x y : Nat) : Bool := isBg (c.pix x y) && hasBoundary c x y

/-- The immediate-placement bound test
`x + new_width <= width && y + new_height <= height`. -/
def fitsAt (c n : Img) (x y : Nat) : Bool :=
  decide (x + n.width ≤ c.width) && decide (y + n.height ≤ c.height)

/-- `tmp_width` of the growth-candidate bookkeeping:
`x + new_width + 1`, raised to the canvas width when smaller. -/
def tmpW (c n : Img) (x : Nat) : Nat :=
  let t := x + n.width + 1
  if t < c.width then c.width else t

/-- `tmp_height` of the growth-candidate bookkeeping. -/
def tmpH (c n : Img) (y : Nat) : Nat :=
  let t := y + n.height + 1
  if t < c.height then c.height else t

/-- `scope_delta = (tmp_height * tmp_width) - (width * height)` for the
growth candidate anchored at `p`. -/
def candDelta (c n : Img) (p : Nat × Nat) : Nat :=
  tmpH c n p.2 * tmpW c n p.1 - c.width * c.height

/-- The grown canvas size a growth candidate at `p` asks for. -/
def candSize (c n : Img) (p : Nat × Nat) : Nat × Nat :=
  (tmpW c n p.1, tmpH c n p.2)

/-- A position the scan places at immediately: candidate anchor, empty
footprint, and the footprint fits the current bounds. -/
def qualifies (c n : Img) (p : Nat × Nat) : Bool :=
  anchorAt c p.1 p.2 && is_empty_space c p.1 p.2 n.width n.height && fitsAt c n p.1 p.2

/-- A position that is a growth candidate: candidate anchor with empty
(clipped) footprint that does not fit the current bounds. -/
def candAt (c n : Img) (p : Nat × Nat) : Bool :=
  anchorAt c p.1 p.2 && is_empty_space c p.1 p.2 n.width n.height && !(fitsAt c n p.1 p.2)

/-- The mutable scan state of `place_image`:
`min_width`, `min_height`, `min_scope`, `found`. -/
structure ScanState where
  minW : Nat
  minH : Nat
  minScope : Nat
  found : Bool
deriving DecidableEq, Repr

/-- The growth-candidate update of the scan: record the candidate when its
`scope_delta` is strictly below the current `min_scope`. -/
def updateCand (c n : Img) (st : ScanState) (p : Nat × Nat) : ScanState :=
  if candDelta c n p < st.minScope then
    ⟨tmpW c n p.1, tmpH c n p.2, candDelta c n p, true⟩
  else st

/-- Outcome of the double scan loop: an early `return` at a placement
position, or the loop ran to completion with a final state. -/
inductive ScanResult where
  | placed (x y : Nat)
  | acc (st : ScanState)
deriving DecidableEq, Repr

/-- The scan loop of `place_image` over a list of positions. -/
def scan (c n : Img) : List (Nat × Nat) → ScanState → ScanResult
  | [], st => .acc st
  | p :: rest, st =>
    if anchorAt c p.1 p.2 && is_empty_space c p.1 p.2 n.width n.height then
      if fitsAt c n p.1 p.2 then .placed p.1 p.2
      else scan c n rest (updateCand c n st p)
    else scan c n rest st

/-- The canvas positions in the scan's order: `y` outer, `x` inner. -/
def rowMajor (w h : Nat) : List (Nat × Nat) :=
  (List.range h).flatMap fun y => (List.range w).map fun x => (x, y)

/-- The scan-state initialisation of `place_image`. -/
def initState (c n : Img) : ScanState := ⟨c.width, c.height, n.width * n.height, false⟩

/-- What one call of `place_image` decides (before recursing):
an immediate placement, a growth to a recorded candidate's size, or the
no-anchor fallback growth along the longer dimension. -/
inductive StepResult where
  | placed (x y : Nat)
  | growTo (g : Img)
  | fallback (g : Img)

/-- The post-scan branching of `place_image` on the final scan state. -/
def stepFromState (c n : Img) (st : ScanState) : StepResult :=
  if st.found then .growTo (growCanvas c st.minW st.minH)
  else if c.width > c.height then .fallback (growCanvas c c.width (c.height + n.height))
  else .fallback (growCanvas c (c.width + n.width) c.height)

/-- One call of `place_image` up to (but not including) its recursion. -/
def place_step (c n : Img) : StepResult :=
  match scan c n (rowMajor c.width c.height) (initState c n) with
  | .placed x y => .placed x y
  | .acc st => stepFromState c n st

/-- Model of `place_image`, fuel-indexed to account for its unbounded
recursion; the placement origin is returned alongside the canvas. -/
def place_image : Nat → Img → Img → Option (Img × Nat × Nat)
  | 0, _, _ => none
  | fuel + 1, c, n =>
    match place_step c n with
    | .placed x y => some (copyFrom c n x y, x, y)
    | .growTo g => place_image fuel g n
    | .fallback g => place_image fuel g n

/-- The growth candidates a full scan of `c` for `n` passes through. -/
def growthCandidates (c n : Img) : List (Nat × Nat) :=
  (rowMajor c.width c.height).filter (candAt c n)

/-- Projection: did the step take the no-anchor fallback branch? -/
def isFallback : StepResult → Bool
  | .fallback _ => true
  | _ => false

/-- Projection: did the step take the recorded-candidate growth branch? -/
def isGrow : StepResult → Bool
  | .growTo _ => true
  | _ => false

/-- Projection: the canvas a growth step (either kind) recurses on. -/
def stepGrown : StepResult → Option Img
  | .placed _ _ => none
  | .growTo g => some g
  | .fallback g => some g

/-- Projection: the dimensions of the canvas a growth step recurses on. -/
def stepDims (r : StepResult) : Option (Nat × Nat) :=
  (stepGrown r).map fun g => (g.width, g.height)

/-- Image area, from `dimensions().0 * dimensions().1`. -/
def area (img : Img) : Nat := img.width * img.height

/-- A placed bounding box: origin and size. -/
abbrev PlacedBox := (Nat × Nat) × (Nat × Nat)

/-- One loop iteration of `create_collage`: place the next rectangle and
append its bounding box to the trace. -/
def collageStep (fuel : Nat) (st : Img × List PlacedBox) (img : Img) :
    Option (Img × List PlacedBox) :=
  (place_image fuel st.1 img).map fun res =>
    (res.1, st.2 ++ [((res.2.1, res.2.2), (img.width, img.height))])

/-- Model of `create_collage` (the `mode == "area"` branch the reference
always takes): stable-sort by descending area — `sort_by` in Rust is
stable, as is `insertionSort` — seed with the first rectangle, then fold
`place_image` over the rest.  Instrumented with the placed bounding-box
trace; `none` models both the `remove(0)` panic on an empty vector and
fuel exhaustion inside a placement. -/
def create_collage (fuel : Nat) (images : List Img) : Option (Img × List PlacedBox) :=
  match images.insertionSort (fun a b => area b ≤ area a) with
  | [] => none
  | first :: rest =>
    rest.foldlM (collageStep fuel) (first, [((0, 0), (first.width, first.height))])

/-- Membership of a pixel coordinate in a placed bounding box. -/
def inBoxP (pb : PlacedBox) (i j : Nat) : Prop :=
  pb.1.1 ≤ i ∧ i < pb.1.1 + pb.2.1 ∧ pb.1.2 ≤ j ∧ j < pb.1.2 + pb.2.2

instance (pb : PlacedBox) (i j : Nat) : Decidable (inBoxP pb i j) := by
  unfold inBoxP; infer_instance

/-- Two boxes share a pixel coordinate iff their coordinate intervals
overlap in both axes. -/
def boxesOverlap (p q : PlacedBox) : Bool :=
  decide (max p.1.1 q.1.1 < min (p.1.1 + p.2.1) (q.1.1 + q.2.1)) &&
  decide (max p.1.2 q.1.2 < min (p.1.2 + p.2.2) (q.1.2 + q.2.2))

/-- Every pair of distinct boxes in the list is pixel-disjoint. -/
def pairwiseDisjointBoxes : List PlacedBox → Bool
  | [] => true
  | p :: rest => (rest.all fun q => !boxesOverlap p q) && pairwiseDisjointBoxes rest

/-- No pixel of the image is the background sentinel. -/
def noBlackPix (img : Img) : Bool :=
  (List.range img.height).all fun j => (List.range img.width).all fun i =>
    !isBg (img.pix i j)

/-- The canvas's pixel map extended by background beyond its bounds; the
view under which growth steps change nothing. -/
def extendedPix (c : Img) (i j : Nat) : Pixel :=
  if i < c.width ∧ j < c.height then c.pix i j else blackPix

/-- Termination of the placement recursion on a given canvas and
rectangle: some fuel suffices. -/
def PlacementTerminates (c n : Img) : Prop :=
  ∃ fuel out, place_image fuel c n = some out

/- Concrete inputs used by counterexamples and witnesses. -/

/-- Helper to build small concrete images from a row list. -/
def mkImg (w h : Nat) (rows : List (List Pixel)) : Img :=
  ⟨w, h, fun x y => ((rows.getD y []).getD x blackPix)⟩

/-- A 2×1 image: black pixel then white pixel. -/
def imgBW : Img := mkImg 2 1 [[blackPix, whitePix]]

/-- A 1×1 solid non-sentinel (red) rectangle. -/
def imgRed1 : Img := ⟨1, 1, fun _ _ => ⟨200, 30, 40⟩⟩

/-- A 2×2 solid red rectangle. -/
def imgRed22 : Img := ⟨2, 2, fun _ _ => ⟨200, 30, 40⟩⟩

/-- A 5×1 solid red rectangle. -/
def imgRed51 : Img := ⟨5, 1, fun _ _ => ⟨200, 30, 40⟩⟩

/-- A 2×1 all-white image. -/
def imgWhite21 : Img := mkImg 2 1 [[whitePix, whitePix]]

/-- A 3×1 canvas: white, black, black. -/
def cWBB : Img := mkImg 3 1 [[whitePix, blackPix, blackPix]]

/-- A 6×2 canvas, all black except a white marker at `(2, 1)`. -/
def cSix : Img := mkImg 6 2
  [[blackPix, blackPix, blackPix, blackPix, blackPix, blackPix],
   [blackPix, blackPix, whitePix, blackPix, blackPix, blackPix]]

/-- Does the canvas contain a background pixel with an in-bounds
border-marker 4-neighbour? -/
def anchorExists (c : Img) : Bool :=
  (rowMajor c.width c.height).any fun p => anchorAt c p.1 p.2

/- Basic facts about the embedded operations. -/

@[simp]
lemma copyFrom_width (dst src : Img) (ox oy : Nat) :
    (copyFrom dst src ox oy).width = dst.width := rfl

@[simp]
lemma copyFrom_height (dst src : Img) (ox oy : Nat) :
    (copyFrom dst src ox oy).height = dst.height := rfl

lemma copyFrom_pix_in (dst src : Img) (ox oy i j : Nat)
    (h : ox ≤ i ∧ i < ox + src.width ∧ oy ≤ j ∧ j < oy + src.height) :
    (copyFrom dst src ox oy).pix i j = src.pix (i - ox) (j - oy) := by
  simp only [copyFrom, if_pos h]

lemma copyFrom_pix_out (dst src : Img) (ox oy i j : Nat)
    (h : ¬(ox ≤ i ∧ i < ox + src.width ∧ oy ≤ j ∧ j < oy + src.height)) :
    (copyFrom dst src ox oy).pix i j = dst.pix i j := by
  simp only [copyFrom, if_neg h]

@[simp]
lemma growCanvas_width (c : Img) (W H : Nat) : (growCanvas c W H).width = W := rfl

@[simp]
lemma growCanvas_height (c : Img) (W H : Nat) : (growCanvas c W H).height = H := rfl

lemma growCanvas_pix_in (c : Img) (W H i j : Nat) (hi : i < c.width) (hj : j < c.height) :
    (growCanvas c W H).pix i j = c.pix i j := by
  unfold growCanvas
  rw [copyFrom_pix_in _ _ _ _ _ _ ⟨Nat.zero_le _, by omega, Nat.zero_le _, by omega⟩]
  simp

lemma growCanvas_pix_out (c : Img) (W H i j : Nat) (h : ¬(i < c.width ∧ j < c.height)) :
    (growCanvas c W H).pix i j = blackPix := by
  unfold growCanvas
  rw [copyFrom_pix_out]
  rfl
  intro ⟨_, h2, _, h4⟩
  exact h ⟨by omega, by omega⟩

@[simp]
lemma isBg_blackPix : isBg blackPix = true := rfl

lemma growCanvas_extendedPix (c : Img) (W H : Nat) (hW : c.width ≤ W) (hH : c.height ≤ H) :
    ∀ i j, extendedPix (growCanvas c W H) i j = extendedPix c i j := by
  intro i j
  unfold extendedPix
  by_cases hc : i < c.width ∧ j < c.height
  · rw [if_pos ⟨by simpa using (by omega : i < W), by simpa using (by omega : j < H)⟩,
      if_pos hc, growCanvas_pix_in c W H i j hc.1 hc.2]
  · rw [if_neg hc]
    by_cases hg : i < W ∧ j < H
    · rw [if_pos (by simpa using hg), growCanvas_pix_out c W H i j hc]
    · rw [if_neg (by simpa using hg)]

lemma tmpW_eq_max (c n : Img) (x : Nat) : tmpW c n x = max (x + n.width + 1) c.width := by
  show (if x + n.width + 1 < c.width then c.width else x + n.width + 1) = _
  split <;> omega

lemma tmpH_eq_max (c n : Img) (y : Nat) : tmpH c n y = max (y + n.height + 1) c.height := by
  show (if y + n.height + 1 < c.height then c.height else y + n.height + 1) = _
  split <;> omega

lemma mem_rowMajor (w h : Nat) (p : Nat × Nat) : p ∈ rowMajor w h ↔ p.1 < w ∧ p.2 < h := by
  unfold rowMajor
  simp only [List.mem_flatMap, List.mem_map, List.mem_range]
  constructor
  · rintro ⟨y, hy, x, hx, rfl⟩
    exact ⟨hx, hy⟩
  · rintro ⟨h1, h2⟩
    exact ⟨p.2, h2, p.1, h1, rfl⟩

lemma is_empty_space_iff (c : Img) (x y w h : Nat) (hx : x < c.width) (hy : y < c.height) :
    is_empty_space c x y w h = true ↔
      ∀ j < min h (c.height - y), ∀ i < min w (c.width - x),
        isBg (c.pix (x + i) (y + j)) = true := by
  unfold is_empty_space
  have hw : (if x + w > c.width then c.width - x else w) = min w (c.width - x) := by
    split <;> omega
  have hh : (if y + h > c.height then c.height - y else h) = min h (c.height - y) := by
    split <;> omega
  rw [hw, hh]
  simp only [List.all_eq_true, List.mem_range]

/- Characterisation of the scan loop. -/

lemma scan_placed_iff (c n : Img) :
    ∀ (l : List (Nat × Nat)) (st : ScanState) (x y : Nat),
      scan c n l st = .placed x y ↔ l.find? (qualifies c n) = some (x, y) := by
  intro l
  induction l with
  | nil =>
    intro st x y
    constructor <;> intro h <;> simp_all [scan, List.find?]
  | cons p rest ih =>
    intro st x y
    by_cases h1 : (anchorAt c p.1 p.2 && is_empty_space c p.1 p.2 n.width n.height) = true
    · by_cases h2 : fitsAt c n p.1 p.2 = true
      · have hq : qualifies c n p = true := by
          unfold qualifies
          rw [h1, h2]
          rfl
        rw [List.find?_cons_of_pos _ hq]
        simp only [scan, h1, h2, if_true]
        constructor
        · intro h
          rw [ScanResult.placed.injEq] at h
          simp [Prod.ext_iff, h.1, h.2]
        · intro h
          simp only [Option.some.injEq] at h
          subst h
          rfl
      · have hq : ¬ qualifies c n p = true := by
          unfold qualifies
          rw [h1]
          simpa using h2
        rw [List.find?_cons_of_neg _ hq]
        simp only [scan, h1, if_true, if_neg h2]
        exact ih (updateCand c n st p) x y
    · have hq : ¬ qualifies c n p = true := by
        unfold qualifies
        intro hcon
        rw [Bool.and_eq_true, Bool.and_eq_true] at hcon
        exact h1 (by rw [Bool.and_eq_true]; exact ⟨hcon.1.1, hcon.1.2⟩)
      rw [List.find?_cons_of_neg _ hq]
      simp only [scan, if_neg h1]
      exact ih st x y

lemma scan_acc_foldl (c n : Img) :
    ∀ (l : List (Nat × Nat)) (st0 st : ScanState), scan c n l st0 = .acc st →
      st = (l.filter (candAt c n)).foldl (updateCand c n) st0 ∧
        ∀ p ∈ l, qualifies c n p = false := by
  intro l
  induction l with
  | nil =>
    intro st0 st h
    simp only [scan, ScanResult.acc.injEq] at h
    simp [← h]
  | cons p rest ih =>
    intro st0 st h
    by_cases h1 : (anchorAt c p.1 p.2 && is_empty_space c p.1 p.2 n.width n.height) = true
    · by_cases h2 : fitsAt c n p.1 p.2 = true
      · simp only [scan, h1, h2, if_true] at h
        cases h
      · have hcand : candAt c n p = true := by
          unfold candAt
          rw [h1, Bool.true_and, Bool.not_eq_true', Bool.eq_false_iff]
          simpa using h2
        simp only [scan, h1, if_true, if_neg h2] at h
        obtain ⟨hst, hall⟩ := ih (updateCand c n st0 p) st h
        refine ⟨?_, ?_⟩
        · rw [List.filter_cons_of_pos hcand, List.foldl_cons]
          exact hst
        · intro q hq
          rcases List.mem_cons.mp hq with rfl | hq
          · unfold qualifies
            rw [h1]
            simpa using h2
          · exact hall q hq
    · have hcand : candAt c n p = false := by
        unfold candAt
        rw [Bool.eq_false_iff]
        intro hcon
        rw [Bool.and_eq_true] at hcon
        exact h1 hcon.1
      simp only [scan, if_neg h1] at h
      obtain ⟨hst, hall⟩ := ih st0 st h
      refine ⟨?_, ?_⟩
      · rw [List.filter_cons_of_neg (by simp [hcand]), hst]
      · intro q hq
        rcases List.mem_cons.mp hq with rfl | hq
        · unfold qualifies
          rw [Bool.eq_false_iff]
          intro hcon
          rw [Bool.and_eq_true] at hcon
          exact h1 hcon.1
        · exact hall q hq

lemma scan_eq_acc (c n : Img) :
    ∀ (l : List (Nat × Nat)) (st0 : ScanState), (∀ p ∈ l, qualifies c n p = false) →
      scan c n l st0 = .acc ((l.filter (candAt c n)).foldl (updateCand c n) st0) := by
  intro l
  induction l with
  | nil => intro st0 _; rfl
  | cons p rest ih =>
    intro st0 hall
    have hq : qualifies c n p = false := hall p (List.mem_cons_self p rest)
    by_cases h1 : (anchorAt c p.1 p.2 && is_empty_space c p.1 p.2 n.width n.height) = true
    · have h2 : fitsAt c n p.1 p.2 = false := by
        unfold qualifies at hq
        rw [h1, Bool.true_and] at hq
        exact hq
      have hcand : candAt c n p = true := by
        unfold candAt
        rw [h1, Bool.true_and, h2]
        rfl
      simp only [scan, h1, if_true, h2]
      rw [List.filter_cons_of_pos hcand, List.foldl_cons]
      exact ih (updateCand c n st0 p) (fun q hqm => hall q (List.mem_cons_of_mem p hqm))
    · have hcand : candAt c n p = false := by
        unfold candAt
        rw [Bool.eq_false_iff]
        intro hcon
        rw [Bool.and_eq_true] at hcon
        exact h1 hcon.1
      simp only [scan, if_neg h1]
      rw [List.filter_cons_of_neg (by simp [hcand])]
      exact ih st0 (fun q hqm => hall q (List.mem_cons_of_mem p hqm))

lemma place_image_succ_placed (fuel : Nat) (c n : Img) (x y : Nat)
    (h : place_step c n = .placed x y) :
    place_image (fuel + 1) c n = some (copyFrom c n x y, x, y) := by
  simp only [place_image, h]

/- Behaviour of the growth-candidate bookkeeping fold. -/

lemma updateCand_minScope_le (c n : Img) (st : ScanState) (p : Nat × Nat) :
    (updateCand c n st p).minScope ≤ st.minScope := by
  unfold updateCand
  split
  · next hlt => exact Nat.le_of_lt hlt
  · exact Nat.le_refl _

lemma updateCand_le_delta (c n : Img) (st : ScanState) (p : Nat × Nat) :
    (updateCand c n st p).minScope ≤ candDelta c n p := by
  unfold updateCand
  split
  · exact Nat.le_refl _
  · next hge => exact Nat.le_of_not_lt hge

lemma foldl_updateCand_minScope_le (c n : Img) :
    ∀ (L : List (Nat × Nat)) (st : ScanState),
      (L.foldl (updateCand c n) st).minScope ≤ st.minScope := by
  intro L
  induction L with
  | nil => intro st; exact Nat.le_refl _
  | cons p rest ih =>
    intro st
    rw [List.foldl_cons]
    exact Nat.le_trans (ih _) (updateCand_minScope_le c n st p)

lemma updateCand_pos (c n : Img) (st : ScanState) (p : Nat × Nat)
    (hd : candDelta c n p < st.minScope) :
    updateCand c n st p = ⟨tmpW c n p.1, tmpH c n p.2, candDelta c n p, true⟩ := by
  unfold updateCand
  rw [if_pos hd]

lemma updateCand_neg (c n : Img) (st : ScanState) (p : Nat × Nat)
    (hd : ¬ candDelta c n p < st.minScope) :
    updateCand c n st p = st := by
  unfold updateCand
  rw [if_neg hd]

lemma updateCand_minW_ge (c n : Img) (st : ScanState) (p : Nat × Nat)
    (hw : c.width ≤ st.minW) : c.width ≤ (updateCand c n st p).minW := by
  by_cases hd : candDelta c n p < st.minScope
  · rw [updateCand_pos c n st p hd]
    show c.width ≤ tmpW c n p.1
    rw [tmpW_eq_max]
    omega
  · rw [updateCand_neg c n st p hd]
    exact hw

lemma updateCand_minH_ge (c n : Img) (st : ScanState) (p : Nat × Nat)
    (hh : c.height ≤ st.minH) : c.height ≤ (updateCand c n st p).minH := by
  by_cases hd : candDelta c n p < st.minScope
  · rw [updateCand_pos c n st p hd]
    show c.height ≤ tmpH c n p.2
    rw [tmpH_eq_max]
    omega
  · rw [updateCand_neg c n st p hd]
    exact hh

lemma foldl_updateCand_dims (c n : Img) :
    ∀ (L : List (Nat × Nat)) (st : ScanState), c.width ≤ st.minW → c.height ≤ st.minH →
      c.width ≤ (L.foldl (updateCand c n) st).minW ∧
        c.height ≤ (L.foldl (updateCand c n) st).minH := by
  intro L
  induction L with
  | nil => intro st hw hh; exact ⟨hw, hh⟩
  | cons p rest ih =>
    intro st hw hh
    rw [List.foldl_cons]
    exact ih _ (updateCand_minW_ge c n st p hw) (updateCand_minH_ge c n st p hh)

lemma foldl_updateCand_found_iff (c n : Img) :
    ∀ (L : List (Nat × Nat)) (st : ScanState),
      ((L.foldl (updateCand c n) st).found = true ↔
        st.found = true ∨ ∃ p ∈ L, candDelta c n p < st.minScope) := by
  intro L
  induction L with
  | nil => intro st; simp
  | cons p rest ih =>
    intro st
    rw [List.foldl_cons]
    by_cases hd : candDelta c n p < st.minScope
    · rw [updateCand_pos c n st p hd, ih ⟨tmpW c n p.1, tmpH c n p.2, candDelta c n p, true⟩]
      constructor
      · intro _
        exact Or.inr ⟨p, List.mem_cons_self p rest, hd⟩
      · intro _
        exact Or.inl rfl
    · rw [updateCand_neg c n st p hd, ih st]
      constructor
      · rintro (hf | ⟨q, hq, hqd⟩)
        · exact Or.inl hf
        · exact Or.inr ⟨q, List.mem_cons_of_mem p hq, hqd⟩
      · rintro (hf | ⟨q, hq, hqd⟩)
        · exact Or.inl hf
        · rcases List.mem_cons.mp hq with rfl | hq
          · exact absurd hqd hd
          · exact Or.inr ⟨q, hq, hqd⟩

lemma foldl_updateCand_le_delta (c n : Img) :
    ∀ (L : List (Nat × Nat)) (st : ScanState) (p : Nat × Nat), p ∈ L →
      (L.foldl (updateCand c n) st).minScope ≤ candDelta c n p := by
  intro L
  induction L with
  | nil => intro st p hp; cases hp
  | cons q rest ih =>
    intro st p hp
    rw [List.foldl_cons]
    rcases List.mem_cons.mp hp with rfl | hp
    · exact Nat.le_trans (foldl_updateCand_minScope_le c n rest _)
        (updateCand_le_delta c n st p)
    · exact ih _ p hp

lemma foldl_updateCand_shape (c n : Img) :
    ∀ (L : List (Nat × Nat)) (st : ScanState),
      (L.foldl (updateCand c n) st) = st ∨
        ∃ p ∈ L, (L.foldl (updateCand c n) st) =
          ⟨tmpW c n p.1, tmpH c n p.2, candDelta c n p, true⟩ := by
  intro L
  induction L with
  | nil => intro st; exact Or.inl rfl
  | cons q rest ih =>
    intro st
    rw [List.foldl_cons]
    by_cases hd : candDelta c n q < st.minScope
    · rw [updateCand_pos c n st q hd]
      rcases ih ⟨tmpW c n q.1, tmpH c n q.2, candDelta c n q, true⟩ with heq | ⟨p, hp, heq⟩
      · exact Or.inr ⟨q, List.mem_cons_self q rest, heq⟩
      · exact Or.inr ⟨p, List.mem_cons_of_mem q hp, heq⟩
    · rw [updateCand_neg c n st q hd]
      rcases ih st with heq | ⟨p, hp, heq⟩
      · exact Or.inl heq
      · exact Or.inr ⟨p, List.mem_cons_of_mem q hp, heq⟩

/- Characterisation of one `place_image` step. -/

lemma stepFromState_ne_placed (c n : Img) (st : ScanState) (x y : Nat) :
    stepFromState c n st ≠ .placed x y := by
  unfold stepFromState
  split_ifs <;> simp

lemma place_step_of_scan_placed (c n : Img) (a b : Nat)
    (h : scan c n (rowMajor c.width c.height) (initState c n) = .placed a b) :
    place_step c n = .placed a b := by
  unfold place_step
  rw [h]

lemma place_step_of_scan_acc (c n : Img) (st : ScanState)
    (h : scan c n (rowMajor c.width c.height) (initState c n) = .acc st) :
    place_step c n = stepFromState c n st := by
  unfold place_step
  rw [h]

lemma place_step_placed_iff (c n : Img) (x y : Nat) :
    place_step c n = .placed x y ↔
      (rowMajor c.width c.height).find? (qualifies c n) = some (x, y) := by
  constructor
  · intro h
    cases hscan : scan c n (rowMajor c.width c.height) (initState c n) with
    | placed a b =>
      rw [place_step_of_scan_placed c n a b hscan] at h
      rw [StepResult.placed.injEq] at h
      rw [← h.1, ← h.2]
      exact (scan_placed_iff c n _ _ a b).mp hscan
    | acc st =>
      rw [place_step_of_scan_acc c n st hscan] at h
      exact absurd h (stepFromState_ne_placed c n st x y)
  · intro h
    exact place_step_of_scan_placed c n x y
      ((scan_placed_iff c n (rowMajor c.width c.height) (initState c n) x y).mpr h)

lemma place_step_not_placed (c n : Img)
    (h : (rowMajor c.width c.height).find? (qualifies c n) = none) :
    place_step c n = stepFromState c n
      ((growthCandidates c n).foldl (updateCand c n) (initState c n)) := by
  have hall : ∀ p ∈ rowMajor c.width c.height, qualifies c n p = false := by
    intro p hp
    exact Bool.eq_false_iff.mpr (List.find?_eq_none.mp h p hp)
  exact place_step_of_scan_acc c n _ (scan_eq_acc c n _ _ hall)

lemma place_step_growTo_inv (c n g : Img) (h : place_step c n = .growTo g) :
    ∃ p ∈ growthCandidates c n,
      g = growCanvas c (tmpW c n p.1) (tmpH c n p.2) ∧
      ((growthCandidates c n).foldl (updateCand c n) (initState c n)) =
        ⟨tmpW c n p.1, tmpH c n p.2, candDelta c n p, true⟩ ∧
      candAt c n p = true ∧
      (rowMajor c.width c.height).find? (qualifies c n) = none := by
  cases hscan : scan c n (rowMajor c.width c.height) (initState c n) with
  | placed a b => rw [place_step_of_scan_placed c n a b hscan] at h; cases h
  | acc st =>
    rw [place_step_of_scan_acc c n st hscan] at h
    obtain ⟨hst, hall⟩ := scan_acc_foldl c n _ _ _ hscan
    rw [show List.filter (candAt c n) (rowMajor c.width c.height) = growthCandidates c n
      from rfl] at hst
    have hnone : (rowMajor c.width c.height).find? (qualifies c n) = none :=
      List.find?_eq_none.mpr (fun p hp => by simp [hall p hp])
    unfold stepFromState at h
    by_cases hf : st.found = true
    · rw [if_pos hf] at h
      rw [StepResult.growTo.injEq] at h
      rcases foldl_updateCand_shape c n (growthCandidates c n) (initState c n) with
        heq | ⟨p, hp, heq⟩
      · rw [← hst] at heq
        rw [heq] at hf
        simp [initState] at hf
      · rw [← hst] at heq
        refine ⟨p, hp, ?_, by rw [← hst, heq], List.mem_filter.mp hp |>.2, hnone⟩
        rw [← h, heq]
    · rw [if_neg hf] at h
      split_ifs at h

lemma place_step_fallback_inv (c n g : Img) (h : place_step c n = .fallback g) :
    (rowMajor c.width c.height).find? (qualifies c n) = none ∧
    ((growthCandidates c n).foldl (updateCand c n) (initState c n)).found = false ∧
    ((c.width > c.height ∧ g = growCanvas c c.width (c.height + n.height)) ∨
      (¬ c.width > c.height ∧ g = growCanvas c (c.width + n.width) c.height)) := by
  cases hscan : scan c n (rowMajor c.width c.height) (initState c n) with
  | placed a b => rw [place_step_of_scan_placed c n a b hscan] at h; cases h
  | acc st =>
    rw [place_step_of_scan_acc c n st hscan] at h
    obtain ⟨hst, hall⟩ := scan_acc_foldl c n _ _ _ hscan
    rw [show List.filter (candAt c n) (rowMajor c.width c.height) = growthCandidates c n
      from rfl] at hst
    have hnone : (rowMajor c.width c.height).find? (qualifies c n) = none :=
      List.find?_eq_none.mpr (fun p hp => by simp [hall p hp])
    unfold stepFromState at h
    by_cases hf : st.found = true
    · rw [if_pos hf] at h; cases h
    · rw [if_neg hf] at h
      refine ⟨hnone, by rw [← hst]; simpa using hf, ?_⟩
      by_cases hwh : c.width > c.height
      · rw [if_pos hwh] at h
        rw [StepResult.fallback.injEq] at h
        exact Or.inl ⟨hwh, h.symm⟩
      · rw [if_neg hwh] at h
        rw [StepResult.fallback.injEq] at h
        exact Or.inr ⟨hwh, h.symm⟩

lemma place_step_grown (c n g : Img) (h : stepGrown (place_step c n) = some g) :
    ∃ W H, g = growCanvas c W H ∧ c.width ≤ W ∧ c.height ≤ H := by
  cases hs : place_step c n with
  | placed x y => rw [hs] at h; cases h
  | growTo g0 =>
    rw [hs] at h
    simp only [stepGrown, Option.some.injEq] at h
    subst h
    obtain ⟨p, _, hg, _, _, _⟩ := place_step_growTo_inv c n g0 hs
    exact ⟨tmpW c n p.1, tmpH c n p.2, hg, by rw [tmpW_eq_max]; omega,
      by rw [tmpH_eq_max]; omega⟩
  | fallback g0 =>
    rw [hs] at h
    simp only [stepGrown, Option.some.injEq] at h
    subst h
    obtain ⟨-, -, hcase⟩ := place_step_fallback_inv c n g0 hs
    rcases hcase with ⟨_, hg⟩ | ⟨_, hg⟩
    · exact ⟨c.width, c.height + n.height, hg, Nat.le_refl _, Nat.le_add_right _ _⟩
    · exact ⟨c.width + n.width, c.height, hg, Nat.le_add_right _ _, Nat.le_refl _⟩

lemma place_image_succ_grown (fuel : Nat) (c n g : Img)
    (h : stepGrown (place_step c n) = some g) :
    place_image (fuel + 1) c n = place_image fuel g n := by
  cases hs : place_step c n with
  | placed x y => rw [hs] at h; cases h
  | growTo g0 =>
    rw [hs] at h
    simp only [stepGrown, Option.some.injEq] at h
    subst h
    simp only [place_image, hs]
  | fallback g0 =>
    rw [hs] at h
    simp only [stepGrown, Option.some.injEq] at h
    subst h
    simp only [place_image, hs]

lemma growTo_spec (c n g : Img) (h : place_step c n = .growTo g) :
    ∃ p ∈ growthCandidates c n,
      (g.width, g.height) = candSize c n p ∧
      candDelta c n p < n.width * n.height ∧
      ∀ q ∈ growthCandidates c n, candDelta c n p ≤ candDelta c n q := by
  obtain ⟨p, hp, hg, hfold, hcand, hnone⟩ := place_step_growTo_inv c n g h
  have hfound : ((growthCandidates c n).foldl (updateCand c n) (initState c n)).found = true := by
    rw [hfold]
  have hminp : ((growthCandidates c n).foldl (updateCand c n) (initState c n)).minScope =
      candDelta c n p := by
    rw [hfold]
  refine ⟨p, hp, by rw [hg]; rfl, ?_, ?_⟩
  · obtain (hini | ⟨q, hq, hqd⟩) := (foldl_updateCand_found_iff c n _ (initState c n)).mp hfound
    · simp [initState] at hini
    · have h1 := foldl_updateCand_le_delta c n (growthCandidates c n) (initState c n) q hq
      rw [hminp] at h1
      have h2 : candDelta c n q < n.width * n.height := by simpa [initState] using hqd
      omega
  · intro q hq
    have h1 := foldl_updateCand_le_delta c n (growthCandidates c n) (initState c n) q hq
    rw [hminp] at h1
    exact h1

lemma fallback_of_no_eligible (c n : Img)
    (hnone : (rowMajor c.width c.height).find? (qualifies c n) = none)
    (hge : ∀ p ∈ growthCandidates c n, n.width * n.height ≤ candDelta c n p) :
    isFallback (place_step c n) = true := by
  rw [place_step_not_placed c n hnone]
  unfold stepFromState
  have hfound : ((growthCandidates c n).foldl (updateCand c n) (initState c n)).found = false := by
    rw [Bool.eq_false_iff]
    intro hcon
    obtain (hini | ⟨q, hq, hqd⟩) := (foldl_updateCand_found_iff c n _ _).mp hcon
    · simp [initState] at hini
    · exact absurd (by simpa [initState] using hqd) (Nat.not_lt.mpr (hge q hq))
  rw [if_neg (by simp [hfound])]
  split_ifs <;> rfl

lemma growTo_retry_places (c n g : Img) (h : place_step c n = .growTo g) :
    ∃ x y, place_step g n = .placed x y := by
  obtain ⟨p, hp, hg, hfold, hcand, -⟩ := place_step_growTo_inv c n g h
  have hpm : p.1 < c.width ∧ p.2 < c.height := (mem_rowMajor _ _ p).mp (List.mem_filter.mp hp).1
  unfold candAt at hcand
  rw [Bool.and_eq_true, Bool.and_eq_true] at hcand
  obtain ⟨⟨hanchor, hempty⟩, hnofit⟩ := hcand
  have hgw : g.width = tmpW c n p.1 := by rw [hg]; rfl
  have hgh : g.height = tmpH c n p.2 := by rw [hg]; rfl
  have hcw : c.width ≤ g.width := by rw [hgw, tmpW_eq_max]; omega
  have hch : c.height ≤ g.height := by rw [hgh, tmpH_eq_max]; omega
  have hfit1 : p.1 + n.width < g.width := by rw [hgw, tmpW_eq_max]; omega
  have hfit2 : p.2 + n.height < g.height := by rw [hgh, tmpH_eq_max]; omega
  have hq : qualifies g n p = true := by
    unfold qualifies
    rw [Bool.and_eq_true, Bool.and_eq_true]
    refine ⟨⟨?_, ?_⟩, ?_⟩
    · unfold anchorAt at hanchor ⊢
      rw [Bool.and_eq_true] at hanchor ⊢
      refine ⟨?_, ?_⟩
      · rw [hg, growCanvas_pix_in c _ _ p.1 p.2 hpm.1 hpm.2]
        exact hanchor.1
      · unfold hasBoundary at hanchor ⊢
        obtain ⟨q, hqm, hqw⟩ := List.any_eq_true.mp hanchor.2
        rw [Bool.and_eq_true, Bool.and_eq_true] at hqw
        have h1 : q.1 < c.width := of_decide_eq_true hqw.1.1
        have h2 : q.2 < c.height := of_decide_eq_true hqw.1.2
        refine List.any_eq_true.mpr ⟨q, hqm, ?_⟩
        rw [Bool.and_eq_true, Bool.and_eq_true]
        refine ⟨⟨decide_eq_true (by omega), decide_eq_true (by omega)⟩, ?_⟩
        rw [hg, growCanvas_pix_in c _ _ q.1 q.2 h1 h2]
        exact hqw.2
    · rw [is_empty_space_iff g p.1 p.2 n.width n.height
        (Nat.lt_of_lt_of_le hpm.1 hcw) (Nat.lt_of_lt_of_le hpm.2 hch)]
      intro j hj i hi
      have hi1 : i < n.width := Nat.lt_of_lt_of_le hi (Nat.min_le_left _ _)
      have hj1 : j < n.height := Nat.lt_of_lt_of_le hj (Nat.min_le_left _ _)
      by_cases hin : p.1 + i < c.width ∧ p.2 + j < c.height
      · rw [hg, growCanvas_pix_in c _ _ _ _ hin.1 hin.2]
        have hold := (is_empty_space_iff c p.1 p.2 n.width n.height hpm.1 hpm.2).mp hempty
        exact hold j (by omega) i (by omega)
      · rw [hg, growCanvas_pix_out c _ _ _ _ hin]
        rfl
    · unfold fitsAt
      rw [Bool.and_eq_true]
      exact ⟨decide_eq_true (by omega), decide_eq_true (by omega)⟩
  have hmem : p ∈ rowMajor g.width g.height :=
    (mem_rowMajor _ _ p).mpr ⟨Nat.lt_of_lt_of_le hpm.1 hcw, Nat.lt_of_lt_of_le hpm.2 hch⟩
  cases hfind : (rowMajor g.width g.height).find? (qualifies g n) with
  | none => exact absurd hq (by simpa using List.find?_eq_none.mp hfind p hmem)
  | some q =>
    refine ⟨q.1, q.2, (place_step_placed_iff g n q.1 q.2).mpr ?_⟩
    rw [hfind, Prod.mk.eta]

/- Divergence of `place_image` on anchor-free canvases. -/

lemma isWhite_of_isBg (p : Pixel) (h : isBg p = true) : isWhite p = false := by
  unfold isBg at h
  unfold isWhite
  rw [Bool.and_eq_true, Bool.and_eq_true] at h
  have h1 : p.r = 0 := by simpa using h.1.1
  simp [h1]

/-- Every in- or out-of-bounds pixel of the canvas map is background. -/
def allBgImg (c : Img) : Prop := ∀ i j, isBg (c.pix i j) = true

lemma allBg_no_anchor (c : Img) (hc : allBgImg c) (x y : Nat) : anchorAt c x y = false := by
  rw [Bool.eq_false_iff]
  intro hcon
  unfold anchorAt at hcon
  rw [Bool.and_eq_true] at hcon
  obtain ⟨q, -, hqw⟩ := List.any_eq_true.mp hcon.2
  rw [Bool.and_eq_true, Bool.and_eq_true] at hqw
  rw [isWhite_of_isBg _ (hc q.1 q.2)] at hqw
  exact Bool.noConfusion hqw.2

lemma scan_no_anchor (c n : Img) :
    ∀ (l : List (Nat × Nat)) (st : ScanState),
      (∀ p ∈ l, anchorAt c p.1 p.2 = false) → scan c n l st = .acc st := by
  intro l
  induction l with
  | nil => intro st _; rfl
  | cons p rest ih =>
    intro st hall
    have h1 : (anchorAt c p.1 p.2 && is_empty_space c p.1 p.2 n.width n.height) = false := by
      rw [hall p (List.mem_cons_self p rest)]
      rfl
    simp only [scan, h1, Bool.false_eq_true, if_false]
    exact ih st (fun q hq => hall q (List.mem_cons_of_mem p hq))

lemma allBg_growCanvas (c : Img) (hc : allBgImg c) (W H : Nat) :
    allBgImg (growCanvas c W H) := by
  intro i j
  by_cases hin : i < c.width ∧ j < c.height
  · rw [growCanvas_pix_in c W H i j hin.1 hin.2]
    exact hc i j
  · rw [growCanvas_pix_out c W H i j hin]
    rfl

lemma allBg_place_image_none (n : Img) :
    ∀ (fuel : Nat) (c : Img), allBgImg c → place_image fuel c n = none := by
  intro fuel
  induction fuel with
  | zero => intro c _; rfl
  | succ f ih =>
    intro c hc
    have hscan : scan c n (rowMajor c.width c.height) (initState c n) = .acc (initState c n) :=
      scan_no_anchor c n _ _ (fun p _ => allBg_no_anchor c hc p.1 p.2)
    have hstep := place_step_of_scan_acc c n _ hscan
    unfold stepFromState at hstep
    rw [if_neg (by simp [initState])] at hstep
    by_cases hwh : c.width > c.height
    · rw [if_pos hwh] at hstep
      simp only [place_image, hstep]
      exact ih _ (allBg_growCanvas c hc _ _)
    · rw [if_neg hwh] at hstep
      simp only [place_image, hstep]
      exact ih _ (allBg_growCanvas c hc _ _)

/- Claim theorems start here. -/

/-- C7: `is_empty_space` first truncates the footprint to the in-bounds
portion and then returns true iff every pixel of the truncated footprint is
background; a footprint extending past the canvas edge is not treated as
automatically non-empty. -/
theorem is_empty_space_clips (c : Img) (x y w h : Nat)
    (hx : x < c.width) (hy : y < c.height) :
    is_empty_space c x y w h = true ↔
      ∀ j < min h (c.height - y), ∀ i < min w (c.width - x),
        isBg (c.pix (x + i) (y + j)) = true :=
  is_empty_space_iff c x y w h hx hy

/-- Witness for C7: on the 3×1 white-black-black canvas the 2×2 footprint
anchored at `(1, 0)` sticks out past the bottom edge, yet its truncated
footprint is all background, so the tester returns true. -/
theorem is_empty_space_clips_witness : is_empty_space cWBB 1 0 2 2 = true :=
  (is_empty_space_clips cWBB 1 0 2 2 (by decide) (by decide)).mpr (by decide)

/-- C5: on the empty input list the reference `create_collage` performs
`images.remove(0)` on an empty vector, an out-of-bounds panic modelled here
as the `none` outcome; the code never produces an `EmptyInput` error value
(the spec documents this as a bug of the reference algorithm). -/
theorem create_collage_empty_input (fuel : Nat) : create_collage fuel [] = none := rfl

/-- C6: scanning canvas pixels in row-major order (y outer, x inner), the
first position that is a candidate anchor whose footprint is entirely
background and satisfies the bound checks receives the rectangle: the
step places there, `place_image` copies the rectangle's pixels at that
anchor and returns it, so nothing after the first qualifying anchor can
influence the result. -/
theorem first_fit_places (fuel : Nat) (c n : Img) (x y : Nat)
    (h : (rowMajor c.width c.height).find? (qualifies c n) = some (x, y)) :
    place_step c n = .placed x y ∧
      place_image (fuel + 1) c n = some (copyFrom c n x y, x, y) := by
  have hp : place_step c n = .placed x y := (place_step_placed_iff c n x y).mpr h
  exact ⟨hp, place_image_succ_placed fuel c n x y hp⟩

/-- Witness for C6: on the black-then-white 2×1 canvas with a 1×1
rectangle, the first qualifying anchor is `(0, 0)` and receives the copy. -/
theorem first_fit_places_witness :
    place_image 1 imgBW imgRed1 = some (copyFrom imgBW imgRed1 0 0, 0, 0) :=
  (first_fit_places 0 imgBW imgRed1 0 0 (by decide)).2

/-- C2 counterexample: on the white-black-black 3×1 canvas with a 2×2
rectangle the scan sees exactly one growth candidate, at `(1, 0)`, whose
candidate canvas size is `(4, 3)`; yet after the scan the canvas is grown
to `(3, 3)` — the fallback size, not the smallest-delta candidate's —
because the candidate's delta (9) is not below the rectangle's area (4)
and is therefore never recorded. -/
theorem growth_skips_candidate_cex :
    growthCandidates cWBB imgRed22 = [(1, 0)] ∧
    candSize cWBB imgRed22 (1, 0) = (4, 3) ∧
    candDelta cWBB imgRed22 (1, 0) = 9 ∧
    stepDims (place_step cWBB imgRed22) = some (3, 3) ∧
    ((3 : Nat), (3 : Nat)) ≠ ((4 : Nat), (3 : Nat)) :=
  ⟨by decide, by decide, by decide, by decide, by decide⟩

/-- C2 (amended): when the step takes the recorded-candidate growth
branch, the canvas is grown to the candidate canvas size
`(max(x+width+1, canvas.width), max(y+height+1, canvas.height))` of a
growth candidate whose area delta over the current canvas area is strictly
below the rectangle's area and minimal among all candidates seen by the
scan; candidates whose delta reaches the rectangle's area are never
recorded. -/
theorem growth_goes_to_min_candidate (c n g : Img) (h : place_step c n = .growTo g) :
    ∃ p ∈ growthCandidates c n,
      (g.width, g.height) = candSize c n p ∧
      candSize c n p = (max (p.1 + n.width + 1) c.width, max (p.2 + n.height + 1) c.height) ∧
      candDelta c n p < n.width * n.height ∧
      ∀ q ∈ growthCandidates c n, candDelta c n p ≤ candDelta c n q := by
  obtain ⟨p, hp, hsize, hlt, hmin⟩ := growTo_spec c n g h
  exact ⟨p, hp, hsize, by simp [candSize, tmpW_eq_max, tmpH_eq_max], hlt, hmin⟩

/-- Witness for C2's theorem, on the 6×2 canvas with a 5×1 rectangle: the
scan takes the growth branch there, so its candidate list is non-empty
(it is `[(2, 0), (3, 1)]`, and the step grows to the `(8, 2)` candidate). -/
theorem growth_goes_to_min_candidate_witness : growthCandidates cSix imgRed51 ≠ [] := by
  cases hs : place_step cSix imgRed51 with
  | placed x y =>
    have hg : isGrow (place_step cSix imgRed51) = true := by decide
    rw [hs] at hg
    simp [isGrow] at hg
  | growTo g =>
    obtain ⟨p, hp, -, -, -, -⟩ := growth_goes_to_min_candidate cSix imgRed51 g hs
    intro hnil
    rw [hnil] at hp
    cases hp
  | fallback g =>
    have hg : isGrow (place_step cSix imgRed51) = true := by decide
    rw [hs] at hg
    simp [isGrow] at hg

/-- C3 counterexample: on the white-black-black 3×1 canvas with a 2×2
rectangle the no-anchor fallback branch is taken although the canvas does
contain a background pixel, `(1, 0)`, with an in-bounds border-marker
4-neighbour. -/
theorem fallback_with_anchor_cex :
    isFallback (place_step cWBB imgRed22) = true ∧
    anchorAt cWBB 1 0 = true ∧
    anchorExists cWBB = true :=
  ⟨by decide, by decide, by decide⟩

/-- C3 (amended): the no-anchor fallback branch is reached exactly when
the scan neither finds a qualifying placement anchor nor sees any growth
candidate with area delta below the rectangle's area — a background pixel
with a border-marker neighbour may well exist when it is taken. -/
theorem fallback_iff_no_eligible (c n : Img) :
    isFallback (place_step c n) = true ↔
      ((rowMajor c.width c.height).find? (qualifies c n) = none ∧
        ∀ p ∈ growthCandidates c n, n.width * n.height ≤ candDelta c n p) := by
  constructor
  · intro h
    cases hs : place_step c n with
    | placed x y => rw [hs] at h; simp [isFallback] at h
    | growTo g => rw [hs] at h; simp [isFallback] at h
    | fallback g =>
      obtain ⟨hnone, hfound, -⟩ := place_step_fallback_inv c n g hs
      refine ⟨hnone, ?_⟩
      intro p hp
      by_contra hlt
      push_neg at hlt
      have hcon : ((growthCandidates c n).foldl (updateCand c n) (initState c n)).found = true :=
        (foldl_updateCand_found_iff c n _ _).mpr (Or.inr ⟨p, hp, by simpa [initState] using hlt⟩)
      rw [hfound] at hcon
      exact Bool.noConfusion hcon
  · rintro ⟨hnone, hge⟩
    exact fallback_of_no_eligible c n hnone hge

/-- Witness for C3's theorem: its backward direction applied to the
white-black-black canvas and the 2×2 rectangle. -/
theorem fallback_iff_no_eligible_witness : isFallback (place_step cWBB imgRed22) = true :=
  (fallback_iff_no_eligible cWBB imgRed22).mpr ⟨by decide, by decide⟩

/-- C10: a deferred growth candidate is recorded only when its area delta
is strictly below the rectangle's area (the initial `min_scope` is
`new_width * new_height` and updates need a strictly smaller delta), and
when every growth candidate's delta reaches the rectangle's area and no
anchor qualifies for placement, nothing is recorded and the no-anchor
fallback growth is taken instead. -/
theorem candidate_delta_threshold (c n : Img) :
    (∀ g, place_step c n = .growTo g →
      ∃ p ∈ growthCandidates c n, candDelta c n p < n.width * n.height) ∧
    ((∀ p ∈ growthCandidates c n, n.width * n.height ≤ candDelta c n p) →
      (rowMajor c.width c.height).find? (qualifies c n) = none →
      isFallback (place_step c n) = true) := by
  constructor
  · intro g hg
    obtain ⟨p, hp, -, hlt, -⟩ := growTo_spec c n g hg
    exact ⟨p, hp, hlt⟩
  · intro hge hnone
    exact fallback_of_no_eligible c n hnone hge

/-- Witness for C10 on the white-black-black canvas with the 2×2
rectangle: its only candidate's delta (9) reaches the rectangle's area
(4), so the fallback is taken. -/
theorem candidate_delta_threshold_witness :
    isFallback (place_step cWBB imgRed22) = true :=
  (candidate_delta_threshold cWBB imgRed22).2 (by decide) (by decide)

/-- C8: after any canvas growth step (recorded-candidate or fallback) the
previously in-bounds pixels keep exactly their colour at the same
coordinates, and every newly added pixel is the background colour. -/
theorem growth_preserves_pixels (c n g : Img) (h : stepGrown (place_step c n) = some g) :
    (c.width ≤ g.width ∧ c.height ≤ g.height) ∧
    (∀ i j, i < c.width → j < c.height → g.pix i j = c.pix i j) ∧
    (∀ i j, i < g.width → j < g.height → ¬(i < c.width ∧ j < c.height) →
      g.pix i j = blackPix) := by
  obtain ⟨W, H, hg, hW, hH⟩ := place_step_grown c n g h
  subst hg
  refine ⟨⟨by simpa using hW, by simpa using hH⟩, ?_, ?_⟩
  · intro i j hi hj
    exact growCanvas_pix_in c W H i j hi hj
  · intro i j _ _ hout
    exact growCanvas_pix_out c W H i j hout

/-- Witness for C8 on the white-black-black canvas grown for the 2×2
rectangle: the preserved corner pixel keeps its white colour. -/
theorem growth_preserves_pixels_witness :
    (stepGrown (place_step cWBB imgRed22)).map (fun g => g.pix 0 0) = some whitePix := by
  cases hg : stepGrown (place_step cWBB imgRed22) with
  | none =>
    have hsome : (stepGrown (place_step cWBB imgRed22)).isSome = true := by decide
    rw [hg] at hsome
    exact Bool.noConfusion hsome
  | some g =>
    have h := (growth_preserves_pixels cWBB imgRed22 g hg).2.1 0 0 (by decide) (by decide)
    simp only [Option.map_some', h]
    decide

/-- C9: across every placement call the canvas dimensions never shrink —
the returned canvas is at least as wide and as tall as the one passed in
(so they are non-decreasing across the collage builder's insertion
steps). -/
theorem canvas_dims_monotone :
    ∀ (fuel : Nat) (c n c' : Img) (x y : Nat),
      place_image fuel c n = some (c', x, y) →
      c.width ≤ c'.width ∧ c.height ≤ c'.height := by
  intro fuel
  induction fuel with
  | zero =>
    intro c n c' x y h
    exact Option.noConfusion h
  | succ f ih =>
    intro c n c' x y h
    cases hs : place_step c n with
    | placed a b =>
      rw [place_image_succ_placed f c n a b hs, Option.some.injEq] at h
      have hc : copyFrom c n a b = c' := congrArg Prod.fst h
      rw [← hc]
      exact ⟨Nat.le_refl _, Nat.le_refl _⟩
    | growTo g =>
      have hsg : stepGrown (place_step c n) = some g := by rw [hs]; rfl
      rw [place_image_succ_grown f c n g hsg] at h
      obtain ⟨W, H, hg, hW, hH⟩ := place_step_grown c n g hsg
      obtain ⟨h1, h2⟩ := ih g n c' x y h
      subst hg
      exact ⟨Nat.le_trans hW (by simpa using h1), Nat.le_trans hH (by simpa using h2)⟩
    | fallback g =>
      have hsg : stepGrown (place_step c n) = some g := by rw [hs]; rfl
      rw [place_image_succ_grown f c n g hsg] at h
      obtain ⟨W, H, hg, hW, hH⟩ := place_step_grown c n g hsg
      obtain ⟨h1, h2⟩ := ih g n c' x y h
      subst hg
      exact ⟨Nat.le_trans hW (by simpa using h1), Nat.le_trans hH (by simpa using h2)⟩

/-- Witness for C9: the immediate placement on the black-white 2×1 canvas
returns a canvas of unchanged dimensions. -/
theorem canvas_dims_monotone_witness :
    imgBW.width ≤ (copyFrom imgBW imgRed1 0 0).width ∧
      imgBW.height ≤ (copyFrom imgBW imgRed1 0 0).height :=
  canvas_dims_monotone 1 imgBW imgRed1 (copyFrom imgBW imgRed1 0 0) 0 0
    (place_image_succ_placed 0 imgBW imgRed1 0 0
      ((place_step_placed_iff imgBW imgRed1 0 0).mpr (by decide)))

/-- C4 counterexample: `place_image` does not terminate on the all-black
2×2 canvas with a (positive-dimension) 1×1 rectangle.  No border marker
ever appears, every call takes the no-anchor fallback, the grown canvas
is all black again, and no amount of fuel produces a result — the canvas
area grows without bound instead of being bounded above. -/
theorem place_image_black_diverges_cex :
    (0 < imgRed1.width ∧ 0 < imgRed1.height) ∧
      ¬ PlacementTerminates (blackImg 2 2) imgRed1 := by
  refine ⟨⟨by decide, by decide⟩, ?_⟩
  rintro ⟨fuel, out, hout⟩
  rw [allBg_place_image_none imgRed1 fuel (blackImg 2 2) (fun _ _ => rfl)] at hout
  exact Option.noConfusion hout

/-- C4 (amended): whenever one call of the placement engine does not fall
through to the no-anchor fallback — it either places immediately or
records a deferred growth candidate — the recursion terminates, and does
so within a single growth step: after a recorded-candidate growth the
deferred anchor fits and is still empty, so the retry always places. -/
theorem place_image_terminates_no_fallback (c n : Img)
    (h : isFallback (place_step c n) = false) :
    (place_image 2 c n).isSome = true := by
  cases hs : place_step c n with
  | placed x y =>
    have h2 : place_image 2 c n = some (copyFrom c n x y, x, y) :=
      place_image_succ_placed 1 c n x y hs
    rw [h2]
    rfl
  | growTo g =>
    have hsg : stepGrown (place_step c n) = some g := by rw [hs]; rfl
    obtain ⟨x, y, hp⟩ := growTo_retry_places c n g hs
    have h2 : place_image 2 c n = some (copyFrom g n x y, x, y) :=
      Eq.trans (place_image_succ_grown 1 c n g hsg) (place_image_succ_placed 0 g n x y hp)
    rw [h2]
    rfl
  | fallback g =>
    rw [hs] at h
    exact Bool.noConfusion h

/-- Witness for C4's amended theorem: the black-white 2×1 canvas places
the 1×1 rectangle immediately, no fallback occurs, and fuel 2 suffices. -/
theorem place_image_terminates_no_fallback_witness :
    (place_image 2 imgBW imgRed1).isSome = true :=
  place_image_terminates_no_fallback imgBW imgRed1 (by decide)

/- What a successful `place_image` call guarantees: the rectangle sits
fully inside the result at the returned origin, every pixel outside that
box is the (background-extended) old canvas pixel, and the box was
entirely background beforehand. -/

structure PlaceSpec (c n c' : Img) (x y : Nat) : Prop where
  wle : c.width ≤ c'.width
  hle : c.height ≤ c'.height
  fitsW : x + n.width ≤ c'.width
  fitsH : y + n.height ≤ c'.height
  inBoxEq : ∀ i j, x ≤ i → i < x + n.width → y ≤ j → j < y + n.height →
    c'.pix i j = n.pix (i - x) (j - y)
  frame : ∀ i j, i < c'.width → j < c'.height →
    ¬(x ≤ i ∧ i < x + n.width ∧ y ≤ j ∧ j < y + n.height) → c'.pix i j = extendedPix c i j
  preBg : ∀ i j, x ≤ i → i < x + n.width → y ≤ j → j < y + n.height →
    isBg (extendedPix c i j) = true

lemma place_image_spec (n : Img) :
    ∀ (fuel : Nat) (c c' : Img) (x y : Nat),
      place_image fuel c n = some (c', x, y) → PlaceSpec c n c' x y := by
  intro fuel
  induction fuel with
  | zero =>
    intro c c' x y h
    exact Option.noConfusion h
  | succ f ih =>
    intro c c' x y h
    cases hs : place_step c n with
    | placed a b =>
      rw [place_image_succ_placed f c n a b hs, Option.some.injEq, Prod.mk.injEq,
        Prod.mk.injEq] at h
      obtain ⟨hc, hx, hy⟩ := h
      subst hx
      subst hy
      subst hc
      have hfind := (place_step_placed_iff c n a b).mp hs
      have hmem := (mem_rowMajor c.width c.height (a, b)).mp (List.mem_of_find?_eq_some hfind)
      have hq := List.find?_some hfind
      unfold qualifies at hq
      rw [Bool.and_eq_true, Bool.and_eq_true] at hq
      obtain ⟨⟨-, hempty⟩, hfits⟩ := hq
      unfold fitsAt at hfits
      rw [Bool.and_eq_true] at hfits
      have hf1 : a + n.width ≤ c.width := of_decide_eq_true hfits.1
      have hf2 : b + n.height ≤ c.height := of_decide_eq_true hfits.2
      have hxw : a < c.width := hmem.1
      have hyh : b < c.height := hmem.2
      refine ⟨Nat.le_refl _, Nat.le_refl _, by simpa using hf1, by simpa using hf2,
        ?_, ?_, ?_⟩
      · intro i j h1 h2 h3 h4
        exact copyFrom_pix_in c n a b i j ⟨h1, h2, h3, h4⟩
      · intro i j hi hj hbox
        rw [copyFrom_pix_out c n a b i j hbox]
        unfold extendedPix
        rw [if_pos ⟨by simpa using hi, by simpa using hj⟩]
      · intro i j h1 h2 h3 h4
        unfold extendedPix
        rw [if_pos ⟨by omega, by omega⟩]
        have hold := (is_empty_space_iff c a b n.width n.height hxw hyh).mp hempty
        have hpt := hold (j - b) (by omega) (i - a) (by omega)
        rw [show a + (i - a) = i from by omega, show b + (j - b) = j from by omega] at hpt
        exact hpt
    | growTo g =>
      have hsg : stepGrown (place_step c n) = some g := by rw [hs]; rfl
      rw [place_image_succ_grown f c n g hsg] at h
      obtain ⟨W, H, hg, hW, hH⟩ := place_step_grown c n g hsg
      have hext : ∀ i j, extendedPix g i j = extendedPix c i j := by
        rw [hg]
        exact growCanvas_extendedPix c W H hW hH
      have hgw : c.width ≤ g.width := by rw [hg]; simpa using hW
      have hgh : c.height ≤ g.height := by rw [hg]; simpa using hH
      obtain ⟨swle, shle, sfw, sfh, sbox, sframe, spre⟩ := ih g c' x y h
      exact ⟨Nat.le_trans hgw swle, Nat.le_trans hgh shle, sfw, sfh, sbox,
        fun i j hi hj hb => by rw [sframe i j hi hj hb, hext],
        fun i j h1 h2 h3 h4 => by rw [← hext]; exact spre i j h1 h2 h3 h4⟩
    | fallback g =>
      have hsg : stepGrown (place_step c n) = some g := by rw [hs]; rfl
      rw [place_image_succ_grown f c n g hsg] at h
      obtain ⟨W, H, hg, hW, hH⟩ := place_step_grown c n g hsg
      have hext : ∀ i j, extendedPix g i j = extendedPix c i j := by
        rw [hg]
        exact growCanvas_extendedPix c W H hW hH
      have hgw : c.width ≤ g.width := by rw [hg]; simpa using hW
      have hgh : c.height ≤ g.height := by rw [hg]; simpa using hH
      obtain ⟨swle, shle, sfw, sfh, sbox, sframe, spre⟩ := ih g c' x y h
      exact ⟨Nat.le_trans hgw swle, Nat.le_trans hgh shle, sfw, sfh, sbox,
        fun i j hi hj hb => by rw [sframe i j hi hj hb, hext],
        fun i j h1 h2 h3 h4 => by rw [← hext]; exact spre i j h1 h2 h3 h4⟩

/- Bounding-box bookkeeping for the collage builder. -/

lemma boxesOverlap_iff (p q : PlacedBox) :
    boxesOverlap p q = true ↔ ∃ i j, inBoxP p i j ∧ inBoxP q i j := by
  unfold boxesOverlap inBoxP
  rw [Bool.and_eq_true, decide_eq_true_eq, decide_eq_true_eq]
  constructor
  · rintro ⟨h1, h2⟩
    exact ⟨max p.1.1 q.1.1, max p.1.2 q.1.2, by omega, by omega⟩
  · rintro ⟨i, j, h1, h2⟩
    omega

lemma pairwiseDisjointBoxes_append (l : List PlacedBox) (b : PlacedBox) :
    pairwiseDisjointBoxes (l ++ [b]) =
      (pairwiseDisjointBoxes l && l.all fun p => !boxesOverlap p b) := by
  induction l with
  | nil => simp [pairwiseDisjointBoxes]
  | cons p rest ih =>
    show (((rest ++ [b]).all fun q => !boxesOverlap p q) &&
        pairwiseDisjointBoxes (rest ++ [b])) =
      (((rest.all fun q => !boxesOverlap p q) && pairwiseDisjointBoxes rest) &&
        (!boxesOverlap p b && rest.all fun q => !boxesOverlap q b))
    rw [List.all_append, ih, List.all_cons, List.all_nil]
    cases boxesOverlap p b <;> cases pairwiseDisjointBoxes rest <;>
      cases rest.all (fun q => !boxesOverlap p q) <;>
      cases rest.all (fun q => !boxesOverlap q b) <;> rfl

lemma noBlackPix_pt (img : Img) (h : noBlackPix img = true) (i j : Nat)
    (hi : i < img.width) (hj : j < img.height) : isBg (img.pix i j) = false := by
  unfold noBlackPix at h
  rw [List.all_eq_true] at h
  have hrow := h j (List.mem_range.mpr hj)
  rw [List.all_eq_true] at hrow
  have hpt := hrow i (List.mem_range.mpr hi)
  simpa using hpt

/-- The builder's invariant: every recorded box lies inside the canvas
and is entirely non-background there, and the boxes are pairwise
pixel-disjoint. -/
def BoxesOK (c : Img) (pls : List PlacedBox) : Prop :=
  (∀ pb ∈ pls, pb.1.1 + pb.2.1 ≤ c.width ∧ pb.1.2 + pb.2.2 ≤ c.height ∧
    ∀ i j, inBoxP pb i j → isBg (c.pix i j) = false) ∧
  pairwiseDisjointBoxes pls = true

lemma collageStep_preserves (fuel : Nat) (st st' : Img × List PlacedBox) (img : Img)
    (hnb : noBlackPix img = true) (hok : BoxesOK st.1 st.2)
    (h : collageStep fuel st img = some st') : BoxesOK st'.1 st'.2 := by
  unfold collageStep at h
  cases hpl : place_image fuel st.1 img with
  | none => rw [hpl] at h; exact Option.noConfusion h
  | some res =>
    rw [hpl] at h
    simp only [Option.map_some', Option.some.injEq] at h
    have hres : place_image fuel st.1 img = some (res.1, res.2.1, res.2.2) := by rw [hpl]
    have spec := place_image_spec img fuel st.1 res.1 res.2.1 res.2.2 hres
    have hc1 : st'.1 = res.1 := by rw [← h]
    have hc2 : st'.2 = st.2 ++ [((res.2.1, res.2.2), (img.width, img.height))] := by rw [← h]
    obtain ⟨hboxes, hdisj⟩ := hok
    -- a pixel of an old box can never lie in the newly placed box
    have hsep : ∀ pb ∈ st.2, ∀ i j, inBoxP pb i j →
        ¬ inBoxP ((res.2.1, res.2.2), (img.width, img.height)) i j := by
      intro pb hpb i j hin hnew
      obtain ⟨hbw, hbh, hbg⟩ := hboxes pb hpb
      unfold inBoxP at hin hnew
      have hbgpt := hbg i j (by unfold inBoxP; exact hin)
      have hpre := spec.preBg i j (by simpa using hnew.1) (by simpa using hnew.2.1)
        (by simpa using hnew.2.2.1) (by simpa using hnew.2.2.2)
      unfold extendedPix at hpre
      rw [if_pos ⟨by omega, by omega⟩] at hpre
      rw [hbgpt] at hpre
      exact Bool.noConfusion hpre
    constructor
    · intro pb hpb
      rw [hc2] at hpb
      rcases List.mem_append.mp hpb with hold | hnew
      · obtain ⟨hbw, hbh, hbg⟩ := hboxes pb hold
        refine ⟨by rw [hc1]; exact Nat.le_trans hbw spec.wle,
          by rw [hc1]; exact Nat.le_trans hbh spec.hle, ?_⟩
        intro i j hin
        have hiw : i < st.1.width := by
          unfold inBoxP at hin
          omega
        have hjh : j < st.1.height := by
          unfold inBoxP at hin
          omega
        have hfr := spec.frame i j (Nat.lt_of_lt_of_le hiw spec.wle)
          (Nat.lt_of_lt_of_le hjh spec.hle) (hsep pb hold i j hin)
        rw [hc1, hfr]
        unfold extendedPix
        rw [if_pos ⟨hiw, hjh⟩]
        exact hbg i j hin
      · rw [List.mem_singleton] at hnew
        subst hnew
        refine ⟨by rw [hc1]; exact spec.fitsW, by rw [hc1]; exact spec.fitsH, ?_⟩
        intro i j hin
        unfold inBoxP at hin
        dsimp only at hin
        have hpix := spec.inBoxEq i j hin.1 hin.2.1 hin.2.2.1 hin.2.2.2
        rw [hc1, hpix]
        exact noBlackPix_pt img hnb (i - res.2.1) (j - res.2.2) (by omega) (by omega)
    · rw [hc2, pairwiseDisjointBoxes_append]
      rw [Bool.and_eq_true]
      refine ⟨hdisj, ?_⟩
      rw [List.all_eq_true]
      intro pb hpb
      rw [Bool.not_eq_true', Bool.eq_false_iff]
      intro hover
      obtain ⟨i, j, hin1, hin2⟩ := (boxesOverlap_iff pb _).mp hover
      exact hsep pb hpb i j hin1 hin2

lemma foldlM_collage (fuel : Nat) :
    ∀ (imgs : List Img) (st out : Img × List PlacedBox),
      (∀ img ∈ imgs, noBlackPix img = true) → BoxesOK st.1 st.2 →
      List.foldlM (collageStep fuel) st imgs = some out → BoxesOK out.1 out.2 := by
  intro imgs
  induction imgs with
  | nil =>
    intro st out _ hok h
    simp only [List.foldlM_nil, Option.pure_def, Option.some.injEq] at h
    rw [← h]
    exact hok
  | cons img rest ih =>
    intro st out hnb hok h
    rw [List.foldlM_cons] at h
    cases hstep : collageStep fuel st img with
    | none =>
      rw [hstep] at h
      exact Option.noConfusion h
    | some st' =>
      rw [hstep] at h
      simp only [Option.bind_eq_bind, Option.some_bind] at h
      exact ih st' out (fun i hi => hnb i (List.mem_cons_of_mem _ hi))
        (collageStep_preserves fuel st st' img (hnb img (List.mem_cons_self _ _)) hok hstep) h

lemma seed_BoxesOK (first : Img) (h : noBlackPix first = true) :
    BoxesOK first [((0, 0), (first.width, first.height))] := by
  refine ⟨?_, rfl⟩
  intro pb hpb
  rw [List.mem_singleton] at hpb
  subst hpb
  refine ⟨by simp, by simp, ?_⟩
  intro i j hin
  unfold inBoxP at hin
  dsimp only at hin
  exact noBlackPix_pt first h i j (by omega) (by omega)

lemma create_collage_cons (fuel : Nat) (images : List Img) (first : Img) (rest : List Img)
    (hsort : images.insertionSort (fun a b => area b ≤ area a) = first :: rest) :
    create_collage fuel images =
      rest.foldlM (collageStep fuel) (first, [((0, 0), (first.width, first.height))]) := by
  unfold create_collage
  rw [hsort]

/-- C1 counterexample: with the black-white 2×1 seed image and a 1×1 red
rectangle, the builder places the red rectangle at `(0, 0)` — the seed's
own black pixel passes the anchor and empty-space tests — so pixel
`(0, 0)` lies inside the footprints of two distinct placed rectangles and
the placed bounding boxes of the final canvas are not pairwise disjoint. -/
theorem collage_overlap_cex :
    (create_collage 1 [imgBW, imgRed1]).map (fun out => out.2) =
      some [((0, 0), (2, 1)), ((0, 0), (1, 1))] ∧
    inBoxP ((0, 0), (2, 1)) 0 0 ∧ inBoxP ((0, 0), (1, 1)) 0 0 ∧
    (create_collage 1 [imgBW, imgRed1]).map (fun out => pairwiseDisjointBoxes out.2) =
      some false :=
  ⟨by decide, by decide, by decide, by decide⟩

/-- C1 (amended): for every input list of rectangles none of which
contains a background-coloured (pure black) pixel, the bounding boxes of
the placed rectangles in the final canvas are pairwise non-intersecting:
no pixel coordinate lies inside the footprints of two distinct placed
rectangles.  (Without that proviso the sentinel-colour collision the spec
flags in §6/§9 lets a later rectangle land inside an earlier one's box,
as the counterexample shows.) -/
theorem create_collage_no_overlap (fuel : Nat) (images : List Img)
    (hb : ∀ img ∈ images, noBlackPix img = true)
    (out : Img × List PlacedBox)
    (h : create_collage fuel images = some out) :
    pairwiseDisjointBoxes out.2 = true := by
  have hperm := List.perm_insertionSort (fun a b => area b ≤ area a) images
  cases hsort : images.insertionSort (fun a b => area b ≤ area a) with
  | nil =>
    rw [create_collage, hsort] at h
    exact Option.noConfusion h
  | cons first rest =>
    rw [create_collage_cons fuel images first rest hsort] at h
    rw [hsort] at hperm
    have hball : ∀ img ∈ first :: rest, noBlackPix img = true :=
      fun img hm => hb img (hperm.mem_iff.mp hm)
    have hok := foldlM_collage fuel rest (first, [((0, 0), (first.width, first.height))]) out
      (fun i hi => hball i (List.mem_cons_of_mem _ hi))
      (seed_BoxesOK first (hball first (List.mem_cons_self _ _))) h
    exact hok.2

/-- Witness for C1's theorem: an all-white 2×1 seed and a 1×1 red
rectangle contain no background pixel; the builder grows the canvas once
and places the red rectangle at `(0, 1)`, and the two recorded boxes are
disjoint. -/
theorem create_collage_no_overlap_witness :
    (create_collage 2 [imgWhite21, imgRed1]).map
      (fun out => pairwiseDisjointBoxes out.2) = some true := by
  cases hrun : create_collage 2 [imgWhite21, imgRed1] with
  | none =>
    have hsome : (create_collage 2 [imgWhite21, imgRed1]).isSome = true := by decide
    rw [hrun] at hsome
    exact Bool.noConfusion hsome
  | some out =>
    have h := create_collage_no_overlap 2 [imgWhite21, imgRed1] (by decide) out hrun
    simp only [Option.map_some', h]

example : place_step cWBB imgRed22 = .fallback (growCanvas cWBB 3 3) := by rfl

